import Mathlib

set_option synthInstance.maxSize 4000
set_option maxRecDepth 4000

/-!
Verification of the page-table visualiser core (tooling/pageviz.py).

The Python module decodes an x86-64 four-level paging hierarchy out of a raw
physical-memory dump and emits a graph of tables (nodes) and entry-to-table
links (edges).  The definitions below are a shallow embedding of that module:

  - a dump (Python bytes) is modelled as a length together with a byte
    accessor, each byte reduced mod 256;
  - the graphviz Digraph is modelled as the state GState: the list of emitted
    nodes (in emission order, as dot.node calls), the list of emitted edges
    (as dot.edge calls), and two instrumentation logs recording each call of
    traverse and each full 512-entry table read, used to reason about the
    control flow of the walker;
  - the node id string built as table_ followed by the address is modelled by
    the address itself (the map is injective);
  - the recursion of traverse is driven by a fuel parameter; totality of the
    walk is the theorem that fuel 4 never runs out (the level mapping is
    strictly descending and the leaf level never recurses).
-/

namespace Pageviz

/-- Model of Python bytes: a length and a byte accessor (bytes are 0..255,
so every read is reduced mod 256). -/
structure Bytes where
  len : Nat
  byte : Nat → Nat

/-- The nine flag tags of FLAG_MASKS, in declaration order. -/
inductive Flag where
  | P | RW | US | PWT | PCD | A | D | PS | G
deriving DecidableEq, Repr, BEq

/-- The four table levels, named as in the source: PML4 (top), PDPT
(middle-upper), PD (middle-lower), PT (leaf). -/
inductive Level where
  | PML4 | PDPT | PD | PT
deriving DecidableEq, Repr, BEq

/-- PAGE_TABLE_ENTRIES = 512. -/
def PAGE_TABLE_ENTRIES : Nat := 512

/-- ENTRY_SIZE = 8 bytes per entry. -/
def ENTRY_SIZE : Nat := 8

/-- FLAG_MASKS: the ordered association list of flag tags and single-bit
masks, exactly as the source dict (insertion order preserved). -/
def FLAG_MASKS : List (Flag × Nat) :=
  [(Flag.P, 1 <<< 0), (Flag.RW, 1 <<< 1), (Flag.US, 1 <<< 2), (Flag.PWT, 1 <<< 3),
   (Flag.PCD, 1 <<< 4), (Flag.A, 1 <<< 5), (Flag.D, 1 <<< 6), (Flag.PS, 1 <<< 7),
   (Flag.G, 1 <<< 8)]

/-- Lookup in FLAG_MASKS, modelling the Python dict access FLAG_MASKS[k]. -/
def flagMaskOf (f : Flag) : Nat := (List.lookup f FLAG_MASKS).getD 0

/-- decode_flags: the tags of FLAG_MASKS whose mask intersects the entry,
in declaration order (the Python function joins them into a string; the
list keeps the same information and order). -/
def decode_flags (entry : Nat) : List Flag :=
  (FLAG_MASKS.filter (fun fm => entry &&& fm.2 != 0)).map (fun fm => fm.1)

/-- get_next_table_addr: mask for bits 12 to 51. -/
def get_next_table_addr (entry : Nat) : Nat :=
  entry &&& 0x000FFFFFFFFFF000

/-- get_dump_offset: converts a physical address to an offset within the
dump (may be negative, hence an Int). -/
def get_dump_offset (dump_base_phys_addr phys_addr : Nat) : Int :=
  (phys_addr : Int) - (dump_base_phys_addr : Int)

/-- readLE64 models struct.unpack of 8 consecutive little-endian bytes
starting at a given offset. -/
def readLE64 (dump : Bytes) (off : Nat) : Nat :=
  (List.range 8).foldr (fun j acc => acc * 256 + dump.byte (off + j) % 256) 0

/-- entryAt: the 64-bit value of slot i of the table at a byte offset,
modelling dump_bytes[offset + i * ENTRY_SIZE : offset + (i+1) * ENTRY_SIZE]
unpacked as an unsigned little-endian 64-bit integer. -/
def entryAt (dump : Bytes) (off i : Nat) : Nat :=
  readLE64 dump (off + i * ENTRY_SIZE)

/-- One row of a table node: (slot index, extracted next physical address,
decoded flags). -/
abbrev Row := Nat × Nat × List Flag

/-- The graph and instrumentation state threaded through the walk. -/
structure GState where
  nodes : List (Nat × Level × List Row)
  edges : List (Nat × Nat × Nat)
  calls : List (Nat × Level)
  reads : List (Nat × Level)
deriving DecidableEq, Repr

/-- The empty graph. -/
def initState : GState := ⟨[], [], [], []⟩

/-- Membership test of the nodes dict keyed by the node id, i.e. by the
physical address alone (node_id = table_ followed by the address). -/
def hasNode (st : GState) (phys_addr : Nat) : Bool :=
  st.nodes.any (fun n => n.1 == phys_addr)

/-- add_table_node: if the id is already present return it unchanged,
otherwise record the node; the returned node id is the address itself. -/
def add_table_node (phys_addr : Nat) (table_type : Level) (entries_data : List Row)
    (st : GState) : GState :=
  if hasNode st phys_addr then st
  else { st with nodes := st.nodes ++ [(phys_addr, table_type, entries_data)] }

/-- The fixed downward level mapping of the source dict
(PML4 to PDPT, PDPT to PD, PD to PT); PT has no key in the source dict and
the function is never consulted at PT because the leaf guard stops first. -/
def nextLevel : Level → Level
  | Level.PML4 => Level.PDPT
  | Level.PDPT => Level.PD
  | Level.PD => Level.PT
  | Level.PT => Level.PT

/-- The body of the per-entry loop of traverse (source lines 107-129),
parameterised by the recursive call. Given the accumulated rows, child
links and state, processes slot i: skip non-present entries; record a row
for each present entry; recurse when the level is not leaf and the PS bit
is unset, linking the child when the recursive call returns an id. -/
def traverse_entry_step (recurse : Nat → Level → GState → Option (Option Nat × GState))
    (dump : Bytes) (off : Nat) (table_type : Level)
    (acc : Option (List Row × List (Nat × Nat) × GState)) (i : Nat) :
    Option (List Row × List (Nat × Nat) × GState) :=
  match acc with
  | none => none
  | some (rows, children, st) =>
    let entry_value := entryAt dump off i
    if entry_value &&& flagMaskOf Flag.P = 0 then
      some (rows, children, st)
    else
      let decoded_flags := decode_flags entry_value
      let next_phys_addr := get_next_table_addr entry_value
      let rows := rows ++ [(i, next_phys_addr, decoded_flags)]
      if table_type ≠ Level.PT ∧ entry_value &&& flagMaskOf Flag.PS = 0 then
        match recurse next_phys_addr (nextLevel table_type) st with
        | none => none
        | some (some child_id, st1) => some (rows, children ++ [(i, child_id)], st1)
        | some (none, st1) => some (rows, children, st1)
      else
        some (rows, children, st)

/-- The state after logging the invocation and the table read of one
in-bounds traverse call (instrumentation only: the graph fields are
untouched). -/
def logStep (phys : Nat) (lvl : Level) (st : GState) : GState :=
  { st with calls := st.calls ++ [(phys, lvl)], reads := st.reads ++ [(phys, lvl)] }

/-- The tail of traverse after the 512-entry loop (source lines 131-139):
record the current table as a node (reusing an already emitted node with the
same id) and then add one edge per recorded child link, labeled by the slot
index; a run out of fuel inside the loop propagates as none. -/
def finishTable (phys_addr : Nat) (table_type : Level)
    (res : Option (List Row × List (Nat × Nat) × GState)) : Option (Option Nat × GState) :=
  match res with
  | none => none
  | some (rows, children, st2) =>
    let st3 := add_table_node phys_addr table_type rows st2
    let st4 : GState :=
      { st3 with edges := st3.edges ++ children.map (fun ic => (phys_addr, ic.1, ic.2)) }
    some (some phys_addr, st4)

/-- traverse (source lines 93-139), with a fuel parameter driving the
recursion; none models a run out of fuel (shown impossible for fuel 4 from
the top level). Returns the node id of the table (none when out of
bounds) and the updated state. Each invocation is logged in calls; each
successful 512-entry table read is logged in reads. -/
def traverse : Nat → Bytes → Nat → Nat → Level → GState → Option (Option Nat × GState)
  | 0, _, _, _, _, _ => none
  | fuel + 1, dump, dump_base_phys_addr, phys_addr, table_type, st =>
    let offset := get_dump_offset dump_base_phys_addr phys_addr
    if offset < 0 ∨ offset + 4096 > (dump.len : Int) then
      some (none, { st with calls := st.calls ++ [(phys_addr, table_type)] })
    else
      let off := offset.toNat
      finishTable phys_addr table_type
        ((List.range PAGE_TABLE_ENTRIES).foldl
          (traverse_entry_step (fun a l s => traverse fuel dump dump_base_phys_addr a l s)
            dump off table_type)
          (some ([], [], logStep phys_addr table_type st)))

/-- parse_paging_structure (source lines 41-145): start the traversal at
dump_base_phys_addr + pml4_offset_in_dump at level PML4 and return the
resulting graph; none only if the fuel ran out, which the totality theorem
rules out. -/
def parse_paging_structure (dump : Bytes) (dump_base_phys_addr pml4_offset_in_dump : Nat) :
    Option GState :=
  match traverse 4 dump dump_base_phys_addr
      (dump_base_phys_addr + pml4_offset_in_dump) Level.PML4 initState with
  | some (_, st) => some st
  | none => none

/-- The total walk: parse_paging_structure with the impossible fuel-exhaustion
case mapped to the empty graph. -/
def walk (dump : Bytes) (dump_base_phys_addr pml4_offset_in_dump : Nat) : GState :=
  match parse_paging_structure dump dump_base_phys_addr pml4_offset_in_dump with
  | some st => st
  | none => initState

/-- The in-bounds condition of traverse as a predicate: the negation of the
source guard offset < 0 or offset + 4096 > len(dump_bytes). -/
def inBoundsTable (dump : Bytes) (base phys : Nat) : Prop :=
  ¬(get_dump_offset base phys < 0 ∨ get_dump_offset base phys + 4096 > (dump.len : Int))

/-- The row produced for slot i of the table at a byte offset: some row when
the entry has the Present bit, none otherwise. -/
def row_of_entry (dump : Bytes) (off i : Nat) : Option Row :=
  let e := entryAt dump off i
  if e &&& flagMaskOf Flag.P != 0 then some (i, get_next_table_addr e, decode_flags e)
  else none

/-- Modelled from the spec, section 4.3 Table Reader: the ordered sequence of
rows of present entries, one candidate per slot index 0..511 in increasing
index order, each present entry recorded as (slot index, next physical
address, decoded flags). Compared against the rows the walker accumulates. -/
def read_table_rows_spec (dump : Bytes) (off : Nat) : List Row :=
  (List.range PAGE_TABLE_ENTRIES).filterMap (row_of_entry dump off)

/-- Ranking of the levels by remaining descent depth; used to show the fuel
of 4 never runs out. -/
def levelRank : Level → Nat
  | Level.PML4 => 3
  | Level.PDPT => 2
  | Level.PD => 1
  | Level.PT => 0

/-- State extension: the second state has the same nodes, edges, calls and
reads lists as the first, each possibly extended at the right end. -/
def Ext (st st2 : GState) : Prop :=
  (∃ t, st2.nodes = st.nodes ++ t) ∧ (∃ t, st2.edges = st.edges ++ t) ∧
  (∃ t, st2.calls = st.calls ++ t) ∧ (∃ t, st2.reads = st.reads ++ t)

/-- Soundness of one recorded node: its table is in bounds and its rows are
exactly the present entries of its 512 slots in increasing slot order. -/
def NodeOk (dump : Bytes) (base : Nat) (n : Nat × Level × List Row) : Prop :=
  inBoundsTable dump base n.1 ∧
  n.2.2 = read_table_rows_spec dump (get_dump_offset base n.1).toNat

/-- Soundness of one recorded edge: both endpoints are recorded nodes, the
slot index is in range, the parent table is in bounds, and the entry at the
slot is present with the Page-Size bit unset and points at the child. -/
def EdgeOk (dump : Bytes) (base : Nat) (st : GState) (e : Nat × Nat × Nat) : Prop :=
  hasNode st e.1 = true ∧ hasNode st e.2.2 = true ∧ e.2.1 < PAGE_TABLE_ENTRIES ∧
  inBoundsTable dump base e.1 ∧
  entryAt dump (get_dump_offset base e.1).toNat e.2.1 &&& flagMaskOf Flag.P ≠ 0 ∧
  entryAt dump (get_dump_offset base e.1).toNat e.2.1 &&& flagMaskOf Flag.PS = 0 ∧
  e.2.2 = get_next_table_addr (entryAt dump (get_dump_offset base e.1).toNat e.2.1)

/-- The graph invariant maintained by the walk: node addresses are pairwise
distinct, every node is sound, and every edge is sound. -/
def Inv (dump : Bytes) (base : Nat) (st : GState) : Prop :=
  (st.nodes.map (fun n => n.1)).Nodup ∧
  (∀ n ∈ st.nodes, NodeOk dump base n) ∧
  (∀ e ∈ st.edges, EdgeOk dump base st e)

/-- Soundness of the recorded child links of one table while its 512 slots
are folded over: slot in range, the child node already recorded, and the
entry at the slot present, not huge-page, pointing at the child. -/
def ChildrenOk (dump : Bytes) (off : Nat) (st : GState) (children : List (Nat × Nat)) : Prop :=
  ∀ c ∈ children, c.1 < PAGE_TABLE_ENTRIES ∧ hasNode st c.2 = true ∧
    entryAt dump off c.1 &&& flagMaskOf Flag.P ≠ 0 ∧
    entryAt dump off c.1 &&& flagMaskOf Flag.PS = 0 ∧
    c.2 = get_next_table_addr (entryAt dump off c.1)

/-- Concrete dump of the end-to-end scenarios: 4096 bytes, all zero except
byte 0 set to 0x01, so slot 0 of every level points back at physical
address 0 with the Present bit set. -/
def cycleBytes : Bytes := ⟨4096, fun i => if i = 0 then 1 else 0⟩

/-- Concrete zero-length dump: every table is out of bounds. -/
def emptyBytes : Bytes := ⟨0, fun _ => 0⟩

/-- Concrete zero-length dump whose bytes all read 1: entries decode as
present with the Page-Size bit unset, but every table is out of bounds. -/
def onesBytes : Bytes := ⟨0, fun _ => 1⟩

theorem flagMaskOf_P : flagMaskOf Flag.P = 1 := rfl

theorem flagMaskOf_PS : flagMaskOf Flag.PS = 128 := rfl

theorem traverse_entry_step_skip (recurse : Nat → Level → GState → Option (Option Nat × GState))
    (dump : Bytes) (off : Nat) (lvl : Level) (rows : List Row)
    (children : List (Nat × Nat)) (st : GState) (i : Nat)
    (h : entryAt dump off i &&& flagMaskOf Flag.P = 0) :
    traverse_entry_step recurse dump off lvl (some (rows, children, st)) i
      = some (rows, children, st) := by
  simp [traverse_entry_step, h]

theorem traverse_entry_step_terminal (recurse : Nat → Level → GState → Option (Option Nat × GState))
    (dump : Bytes) (off : Nat) (lvl : Level) (rows : List Row)
    (children : List (Nat × Nat)) (st : GState) (i : Nat)
    (hp : entryAt dump off i &&& flagMaskOf Flag.P ≠ 0)
    (ht : lvl = Level.PT ∨ entryAt dump off i &&& flagMaskOf Flag.PS ≠ 0) :
    traverse_entry_step recurse dump off lvl (some (rows, children, st)) i
      = some (rows ++ [(i, get_next_table_addr (entryAt dump off i),
                        decode_flags (entryAt dump off i))], children, st) := by
  have hcond : ¬(lvl ≠ Level.PT ∧ entryAt dump off i &&& flagMaskOf Flag.PS = 0) := by
    rcases ht with ht | ht
    · intro hc; exact hc.1 ht
    · intro hc; exact ht hc.2
  simp [traverse_entry_step, hp, hcond]

theorem traverse_entry_step_child (recurse : Nat → Level → GState → Option (Option Nat × GState))
    (dump : Bytes) (off : Nat) (lvl : Level) (rows : List Row)
    (children : List (Nat × Nat)) (st st1 : GState) (i c : Nat)
    (hp : entryAt dump off i &&& flagMaskOf Flag.P ≠ 0)
    (hl : lvl ≠ Level.PT)
    (hs : entryAt dump off i &&& flagMaskOf Flag.PS = 0)
    (hrec : recurse (get_next_table_addr (entryAt dump off i)) (nextLevel lvl) st
      = some (some c, st1)) :
    traverse_entry_step recurse dump off lvl (some (rows, children, st)) i
      = some (rows ++ [(i, get_next_table_addr (entryAt dump off i),
                        decode_flags (entryAt dump off i))], children ++ [(i, c)], st1) := by
  simp [traverse_entry_step, hp, hl, hs, hrec]

theorem traverse_entry_step_childless (recurse : Nat → Level → GState → Option (Option Nat × GState))
    (dump : Bytes) (off : Nat) (lvl : Level) (rows : List Row)
    (children : List (Nat × Nat)) (st st1 : GState) (i : Nat)
    (hp : entryAt dump off i &&& flagMaskOf Flag.P ≠ 0)
    (hl : lvl ≠ Level.PT)
    (hs : entryAt dump off i &&& flagMaskOf Flag.PS = 0)
    (hrec : recurse (get_next_table_addr (entryAt dump off i)) (nextLevel lvl) st
      = some (none, st1)) :
    traverse_entry_step recurse dump off lvl (some (rows, children, st)) i
      = some (rows ++ [(i, get_next_table_addr (entryAt dump off i),
                        decode_flags (entryAt dump off i))], children, st1) := by
  simp [traverse_entry_step, hp, hl, hs, hrec]

theorem traverse_entry_step_fail (recurse : Nat → Level → GState → Option (Option Nat × GState))
    (dump : Bytes) (off : Nat) (lvl : Level) (rows : List Row)
    (children : List (Nat × Nat)) (st : GState) (i : Nat)
    (hp : entryAt dump off i &&& flagMaskOf Flag.P ≠ 0)
    (hl : lvl ≠ Level.PT)
    (hs : entryAt dump off i &&& flagMaskOf Flag.PS = 0)
    (hrec : recurse (get_next_table_addr (entryAt dump off i)) (nextLevel lvl) st = none) :
    traverse_entry_step recurse dump off lvl (some (rows, children, st)) i = none := by
  simp [traverse_entry_step, hp, hl, hs, hrec]

theorem foldl_step_none (recurse : Nat → Level → GState → Option (Option Nat × GState))
    (dump : Bytes) (off : Nat) (lvl : Level) (l : List Nat) :
    List.foldl (traverse_entry_step recurse dump off lvl) none l = none := by
  induction l with
  | nil => rfl
  | cons i l ih => simpa [traverse_entry_step] using ih

theorem foldl_fixed {α β : Type} (f : α → β → α) (a : α) (l : List β)
    (h : ∀ b ∈ l, f a b = a) : List.foldl f a l = a := by
  induction l with
  | nil => rfl
  | cons b l ih =>
    rw [List.foldl_cons, h b (by simp)]
    exact ih (fun b2 hb2 => h b2 (by simp [hb2]))

theorem readLE64_zero (dump : Bytes) (off : Nat)
    (h : ∀ j, j < 8 → dump.byte (off + j) % 256 = 0) : readLE64 dump off = 0 := by
  have h0 : dump.byte off % 256 = 0 := by have := h 0 (by norm_num); simpa using this
  simp [readLE64, show List.range 8 = [0, 1, 2, 3, 4, 5, 6, 7] from rfl, h0,
    h 1 (by norm_num), h 2 (by norm_num), h 3 (by norm_num),
    h 4 (by norm_num), h 5 (by norm_num), h 6 (by norm_num), h 7 (by norm_num)]

theorem cycle_entry_zero : entryAt cycleBytes 0 0 = 1 := by decide

theorem cycle_entry_pos (i : Nat) (h1 : 0 < i) : entryAt cycleBytes 0 i = 0 := by
  unfold entryAt
  apply readLE64_zero
  intro j hj
  have hne : 0 + i * ENTRY_SIZE + j ≠ 0 := by
    simp only [ENTRY_SIZE]
    omega
  have hb : cycleBytes.byte (0 + i * ENTRY_SIZE + j) = 0 := if_neg hne
  have hb2 : cycleBytes.byte (i * ENTRY_SIZE + j) = 0 := by simpa using hb
  simp [hb, hb2]

theorem add_table_node_visited (a : Nat) (t : Level) (rows : List Row) (st : GState)
    (h : hasNode st a = true) : add_table_node a t rows st = st := by
  simp [add_table_node, h]

theorem cycle_in_bounds : ¬(get_dump_offset 0 0 < 0 ∨
    get_dump_offset 0 0 + 4096 > (cycleBytes.len : Int)) := by decide

theorem cycle_fold (k : Nat) (lvl : Level) (st1 : GState) :
    List.foldl
      (traverse_entry_step (fun a l s => traverse k cycleBytes 0 a l s) cycleBytes 0 lvl)
      (some ([], [], st1)) (List.range PAGE_TABLE_ENTRIES)
      = List.foldl
          (traverse_entry_step (fun a l s => traverse k cycleBytes 0 a l s) cycleBytes 0 lvl)
          (traverse_entry_step (fun a l s => traverse k cycleBytes 0 a l s) cycleBytes 0 lvl
            (some ([], [], st1)) 0)
          ((List.range 511).map Nat.succ) := by
  rw [show PAGE_TABLE_ENTRIES = 511 + 1 from rfl, List.range_succ_eq_map, List.foldl_cons]

theorem cycle_fold_tail (k : Nat) (lvl : Level) (acc : List Row × List (Nat × Nat) × GState) :
    List.foldl
      (traverse_entry_step (fun a l s => traverse k cycleBytes 0 a l s) cycleBytes 0 lvl)
      (some acc) ((List.range 511).map Nat.succ) = some acc := by
  apply foldl_fixed
  intro b hb
  obtain ⟨j, _, rfl⟩ := List.mem_map.mp hb
  obtain ⟨rows, children, st⟩ := acc
  apply traverse_entry_step_skip
  rw [cycle_entry_pos (Nat.succ j) (Nat.succ_pos j)]
  rfl

theorem cycle_leaf_fold (k : Nat) (s1 : GState) :
    List.foldl
      (traverse_entry_step (fun a l s => traverse k cycleBytes 0 a l s) cycleBytes 0 Level.PT)
      (some ([], [], s1)) (List.range PAGE_TABLE_ENTRIES)
      = some ([(0, 0, [Flag.P])], [], s1) := by
  have hstep : traverse_entry_step (fun a l s => traverse k cycleBytes 0 a l s) cycleBytes 0
      Level.PT (some ([], [], s1)) 0 = some ([(0, 0, [Flag.P])], [], s1) := by
    rw [traverse_entry_step_terminal _ _ _ _ _ _ _ _
      (by rw [cycle_entry_zero]; decide) (Or.inl rfl)]
    rw [cycle_entry_zero]
    simp [show get_next_table_addr 1 = 0 from by decide,
      show decode_flags 1 = [Flag.P] from by decide]
  rw [cycle_fold, hstep, cycle_fold_tail]

theorem cycle_leaf (k : Nat) (st : GState) :
    traverse (k + 1) cycleBytes 0 0 Level.PT st
      = some (some 0, add_table_node 0 Level.PT [(0, 0, [Flag.P])] (logStep 0 Level.PT st)) := by
  simp only [traverse, show (get_dump_offset 0 0).toNat = 0 from rfl, cycle_leaf_fold]
  rw [if_neg cycle_in_bounds]
  simp [finishTable, logStep]

theorem cycle_level (k : Nat) (lvl : Level) (hl : lvl ≠ Level.PT) (st st2 : GState)
    (hrec : traverse k cycleBytes 0 0 (nextLevel lvl) (logStep 0 lvl st) = some (some 0, st2))
    (hn : hasNode st2 0 = true) :
    traverse (k + 1) cycleBytes 0 0 lvl st
      = some (some 0, { st2 with edges := st2.edges ++ [(0, 0, 0)] }) := by
  have hfold : List.foldl
      (traverse_entry_step (fun a l s => traverse k cycleBytes 0 a l s) cycleBytes 0 lvl)
      (some ([], [], logStep 0 lvl st)) (List.range PAGE_TABLE_ENTRIES)
      = some ([(0, 0, [Flag.P])], [(0, 0)], st2) := by
    rw [cycle_fold]
    rw [traverse_entry_step_child _ _ _ _ _ _ _ st2 0 0
      (by rw [cycle_entry_zero]; decide) hl (by rw [cycle_entry_zero]; decide)
      (by rw [cycle_entry_zero, show get_next_table_addr 1 = 0 from by decide]; exact hrec)]
    rw [cycle_fold_tail]
    rw [cycle_entry_zero]
    simp [show get_next_table_addr 1 = 0 from by decide,
      show decode_flags 1 = [Flag.P] from by decide]
  simp only [traverse, show (get_dump_offset 0 0).toNat = 0 from rfl, hfold]
  rw [if_neg cycle_in_bounds]
  simp [finishTable, add_table_node_visited _ _ _ _ hn]

/-- The graph the walk produces on cycleBytes with base 0 and top offset 0:
a single node (emitted at the innermost level first), three identical
self-loop edges (one per non-leaf level), and four logged calls and reads. -/
def cycleGraph : GState :=
  ⟨[(0, Level.PT, [(0, 0, [Flag.P])])],
   [(0, 0, 0), (0, 0, 0), (0, 0, 0)],
   [(0, Level.PML4), (0, Level.PDPT), (0, Level.PD), (0, Level.PT)],
   [(0, Level.PML4), (0, Level.PDPT), (0, Level.PD), (0, Level.PT)]⟩

theorem traverse_cycle_top :
    traverse 4 cycleBytes 0 0 Level.PML4 initState = some (some 0, cycleGraph) := by
  have h1 := cycle_leaf 0 (logStep 0 Level.PD (logStep 0 Level.PDPT (logStep 0 Level.PML4 initState)))
  have h2 := cycle_level 1 Level.PD (by decide)
    (logStep 0 Level.PDPT (logStep 0 Level.PML4 initState)) _ h1 (by decide)
  have h3 := cycle_level 2 Level.PDPT (by decide)
    (logStep 0 Level.PML4 initState) _ h2 (by decide)
  have h4 := cycle_level 3 Level.PML4 (by decide) initState _ h3 (by decide)
  rw [h4]
  decide

theorem parse_cycle : parse_paging_structure cycleBytes 0 0 = some cycleGraph := by
  unfold parse_paging_structure
  rw [show (0 : Nat) + 0 = 0 from rfl, traverse_cycle_top]

theorem walk_cycle : walk cycleBytes 0 0 = cycleGraph := by
  unfold walk
  rw [parse_cycle]

theorem Ext_refl (st : GState) : Ext st st :=
  ⟨⟨[], by simp⟩, ⟨[], by simp⟩, ⟨[], by simp⟩, ⟨[], by simp⟩⟩

theorem Ext_trans {a b c : GState} (h1 : Ext a b) (h2 : Ext b c) : Ext a c := by
  obtain ⟨⟨t1, e1⟩, ⟨t2, e2⟩, ⟨t3, e3⟩, ⟨t4, e4⟩⟩ := h1
  obtain ⟨⟨u1, f1⟩, ⟨u2, f2⟩, ⟨u3, f3⟩, ⟨u4, f4⟩⟩ := h2
  exact ⟨⟨t1 ++ u1, by simp [f1, e1]⟩, ⟨t2 ++ u2, by simp [f2, e2]⟩,
    ⟨t3 ++ u3, by simp [f3, e3]⟩, ⟨t4 ++ u4, by simp [f4, e4]⟩⟩

theorem Ext_logStep (p : Nat) (l : Level) (st : GState) : Ext st (logStep p l st) :=
  ⟨⟨[], by simp [logStep]⟩, ⟨[], by simp [logStep]⟩,
   ⟨[(p, l)], by simp [logStep]⟩, ⟨[(p, l)], by simp [logStep]⟩⟩

theorem Ext_add_table_node (a : Nat) (t : Level) (rows : List Row) (st : GState) :
    Ext st (add_table_node a t rows st) := by
  unfold add_table_node
  split
  · exact Ext_refl st
  · exact ⟨⟨[(a, t, rows)], by simp⟩, ⟨[], by simp⟩, ⟨[], by simp⟩, ⟨[], by simp⟩⟩

theorem Ext_edges (st : GState) (x : List (Nat × Nat × Nat)) :
    Ext st { st with edges := st.edges ++ x } :=
  ⟨⟨[], by simp⟩, ⟨x, by simp⟩, ⟨[], by simp⟩, ⟨[], by simp⟩⟩

theorem hasNode_mono {st st2 : GState} (h : Ext st st2) {a : Nat}
    (hn : hasNode st a = true) : hasNode st2 a = true := by
  obtain ⟨⟨t, ht⟩, -, -, -⟩ := h
  simp only [hasNode, ht, List.any_append, Bool.or_eq_true]
  exact Or.inl hn

theorem step_ext (R : Nat → Level → GState → Option (Option Nat × GState))
    (dump : Bytes) (off : Nat) (lvl : Level)
    (hR : ∀ a l s r, R a l s = some r → Ext s r.2)
    (rows : List Row) (children : List (Nat × Nat)) (st : GState) (i : Nat)
    (t2 : List Row × List (Nat × Nat) × GState)
    (h : traverse_entry_step R dump off lvl (some (rows, children, st)) i = some t2) :
    Ext st t2.2.2 := by
  by_cases hp : entryAt dump off i &&& flagMaskOf Flag.P = 0
  · rw [traverse_entry_step_skip _ _ _ _ _ _ _ _ hp] at h
    cases h
    exact Ext_refl st
  · by_cases hc : lvl ≠ Level.PT ∧ entryAt dump off i &&& flagMaskOf Flag.PS = 0
    · cases hRr : R (get_next_table_addr (entryAt dump off i)) (nextLevel lvl) st with
      | none =>
        rw [traverse_entry_step_fail _ _ _ _ _ _ _ _ hp hc.1 hc.2 hRr] at h
        cases h
      | some r =>
        obtain ⟨cid, s1⟩ := r
        cases cid with
        | none =>
          rw [traverse_entry_step_childless _ _ _ _ _ _ _ _ _ hp hc.1 hc.2 hRr] at h
          cases h
          exact hR _ _ _ _ hRr
        | some c =>
          rw [traverse_entry_step_child _ _ _ _ _ _ _ _ _ _ hp hc.1 hc.2 hRr] at h
          cases h
          exact hR _ _ _ _ hRr
    · have ht : lvl = Level.PT ∨ entryAt dump off i &&& flagMaskOf Flag.PS ≠ 0 := by
        by_cases hPT : lvl = Level.PT
        · exact Or.inl hPT
        · right
          intro hps
          exact hc ⟨hPT, hps⟩
      rw [traverse_entry_step_terminal _ _ _ _ _ _ _ _ hp ht] at h
      cases h
      exact Ext_refl st

theorem foldl_step_ext (R : Nat → Level → GState → Option (Option Nat × GState))
    (dump : Bytes) (off : Nat) (lvl : Level)
    (hR : ∀ a l s r, R a l s = some r → Ext s r.2) :
    ∀ (l : List Nat) (rows : List Row) (children : List (Nat × Nat)) (st : GState)
      (res : List Row × List (Nat × Nat) × GState),
      List.foldl (traverse_entry_step R dump off lvl) (some (rows, children, st)) l = some res →
      Ext st res.2.2 := by
  intro l
  induction l with
  | nil =>
    intro rows children st res h
    cases h
    exact Ext_refl st
  | cons i l ih =>
    intro rows children st res h
    rw [List.foldl_cons] at h
    cases hs : traverse_entry_step R dump off lvl (some (rows, children, st)) i with
    | none =>
      rw [hs, foldl_step_none] at h
      cases h
    | some t2 =>
      rw [hs] at h
      obtain ⟨r2, c2, s2⟩ := t2
      exact Ext_trans (step_ext R dump off lvl hR rows children st i _ hs) (ih r2 c2 s2 res h)

theorem traverse_ext : ∀ (fuel : Nat) (dump : Bytes) (base phys : Nat) (lvl : Level)
    (st : GState) (r : Option Nat × GState),
    traverse fuel dump base phys lvl st = some r → Ext st r.2 := by
  intro fuel
  induction fuel with
  | zero =>
    intro dump base phys lvl st r h
    cases h
  | succ k ih =>
    intro dump base phys lvl st r h
    simp only [traverse] at h
    split at h
    · cases h
      exact ⟨⟨[], by simp⟩, ⟨[], by simp⟩, ⟨[(phys, lvl)], by simp⟩, ⟨[], by simp⟩⟩
    · cases hf : List.foldl
        (traverse_entry_step (fun a l s => traverse k dump base a l s) dump
          (get_dump_offset base phys).toNat lvl)
        (some ([], [], logStep phys lvl st)) (List.range PAGE_TABLE_ENTRIES) with
      | none =>
        rw [hf] at h
        cases h
      | some t2 =>
        rw [hf] at h
        obtain ⟨rows, children, st2⟩ := t2
        simp only [finishTable] at h
        cases h
        refine Ext_trans (Ext_logStep phys lvl st) (Ext_trans ?_ (Ext_trans
          (Ext_add_table_node phys lvl rows st2) (Ext_edges _ _)))
        exact foldl_step_ext _ dump _ lvl (fun a l s r2 hr => ih dump base a l s r2 hr)
          _ [] [] (logStep phys lvl st) _ hf

theorem nextLevel_rank (lvl : Level) (hl : lvl ≠ Level.PT) :
    levelRank (nextLevel lvl) < levelRank lvl := by
  cases lvl
  · decide
  · decide
  · decide
  · exact absurd rfl hl

theorem step_total (R : Nat → Level → GState → Option (Option Nat × GState))
    (dump : Bytes) (off : Nat) (lvl : Level)
    (hR : ∀ a s, lvl ≠ Level.PT → (R a (nextLevel lvl) s).isSome = true)
    (rows : List Row) (children : List (Nat × Nat)) (st : GState) (i : Nat) :
    (traverse_entry_step R dump off lvl (some (rows, children, st)) i).isSome = true := by
  by_cases hp : entryAt dump off i &&& flagMaskOf Flag.P = 0
  · rw [traverse_entry_step_skip _ _ _ _ _ _ _ _ hp]
    rfl
  · by_cases hc : lvl ≠ Level.PT ∧ entryAt dump off i &&& flagMaskOf Flag.PS = 0
    · cases hRr : R (get_next_table_addr (entryAt dump off i)) (nextLevel lvl) st with
      | none =>
        have := hR (get_next_table_addr (entryAt dump off i)) st hc.1
        rw [hRr] at this
        cases this
      | some r =>
        obtain ⟨cid, s1⟩ := r
        cases cid with
        | none =>
          rw [traverse_entry_step_childless _ _ _ _ _ _ _ _ _ hp hc.1 hc.2 hRr]
          rfl
        | some c =>
          rw [traverse_entry_step_child _ _ _ _ _ _ _ _ _ _ hp hc.1 hc.2 hRr]
          rfl
    · have ht : lvl = Level.PT ∨ entryAt dump off i &&& flagMaskOf Flag.PS ≠ 0 := by
        by_cases hPT : lvl = Level.PT
        · exact Or.inl hPT
        · right
          intro hps
          exact hc ⟨hPT, hps⟩
      rw [traverse_entry_step_terminal _ _ _ _ _ _ _ _ hp ht]
      rfl

theorem foldl_step_total (R : Nat → Level → GState → Option (Option Nat × GState))
    (dump : Bytes) (off : Nat) (lvl : Level)
    (hR : ∀ a s, lvl ≠ Level.PT → (R a (nextLevel lvl) s).isSome = true) :
    ∀ (l : List Nat) (rows : List Row) (children : List (Nat × Nat)) (st : GState),
      (List.foldl (traverse_entry_step R dump off lvl) (some (rows, children, st)) l).isSome
        = true := by
  intro l
  induction l with
  | nil =>
    intro rows children st
    rfl
  | cons i l ih =>
    intro rows children st
    rw [List.foldl_cons]
    have hsome := step_total R dump off lvl hR rows children st i
    cases hs : traverse_entry_step R dump off lvl (some (rows, children, st)) i with
    | none =>
      rw [hs] at hsome
      cases hsome
    | some t2 =>
      obtain ⟨r2, c2, s2⟩ := t2
      exact ih r2 c2 s2

theorem traverse_total : ∀ (fuel : Nat) (lvl : Level), levelRank lvl < fuel →
    ∀ (dump : Bytes) (base phys : Nat) (st : GState),
      (traverse fuel dump base phys lvl st).isSome = true := by
  intro fuel
  induction fuel with
  | zero =>
    intro lvl h
    exact absurd h (Nat.not_lt_zero _)
  | succ k ih =>
    intro lvl hrank dump base phys st
    simp only [traverse]
    split
    · rfl
    · have hf := foldl_step_total (fun a l s => traverse k dump base a l s) dump
        (get_dump_offset base phys).toNat lvl
        (fun a s hl => ih (nextLevel lvl) (by
          have := nextLevel_rank lvl hl
          omega) dump base a s)
        (List.range PAGE_TABLE_ENTRIES) [] [] (logStep phys lvl st)
      cases hfold : List.foldl
        (traverse_entry_step (fun a l s => traverse k dump base a l s) dump
          (get_dump_offset base phys).toNat lvl)
        (some ([], [], logStep phys lvl st)) (List.range PAGE_TABLE_ENTRIES) with
      | none =>
        rw [hfold] at hf
        cases hf
      | some t2 =>
        obtain ⟨rows, children, st2⟩ := t2
        rfl

theorem parse_total (dump : Bytes) (base off : Nat) :
    ∃ st, parse_paging_structure dump base off = some st := by
  have h := traverse_total 4 Level.PML4 (by decide) dump base (base + off) initState
  cases ht : traverse 4 dump base (base + off) Level.PML4 initState with
  | none =>
    rw [ht] at h
    cases h
  | some r =>
    obtain ⟨c, st⟩ := r
    refine ⟨st, ?_⟩
    unfold parse_paging_structure
    rw [ht]

theorem parse_eq_walk (dump : Bytes) (base off : Nat) :
    parse_paging_structure dump base off = some (walk dump base off) := by
  obtain ⟨st, h⟩ := parse_total dump base off
  unfold walk
  rw [h]

theorem Inv_graph_eq {dump : Bytes} {base : Nat} {st st2 : GState}
    (hn : st2.nodes = st.nodes) (he : st2.edges = st.edges)
    (h : Inv dump base st) : Inv dump base st2 := by
  obtain ⟨h1, h2, h3⟩ := h
  refine ⟨by rw [hn]; exact h1, by rw [hn]; exact h2, ?_⟩
  intro e he2
  rw [he] at he2
  have hE := h3 e he2
  unfold EdgeOk hasNode at hE ⊢
  rw [hn]
  exact hE

theorem ChildrenOk_mono {dump : Bytes} {off : Nat} {st st2 : GState}
    {ch : List (Nat × Nat)} (hext : Ext st st2)
    (h : ChildrenOk dump off st ch) : ChildrenOk dump off st2 ch := by
  intro c hc
  obtain ⟨a1, a2, a3, a4, a5⟩ := h c hc
  exact ⟨a1, hasNode_mono hext a2, a3, a4, a5⟩

theorem row_of_entry_none {dump : Bytes} {off i : Nat}
    (h : entryAt dump off i &&& flagMaskOf Flag.P = 0) :
    row_of_entry dump off i = none := by
  simp [row_of_entry, h]

theorem row_of_entry_some {dump : Bytes} {off i : Nat}
    (h : entryAt dump off i &&& flagMaskOf Flag.P ≠ 0) :
    row_of_entry dump off i
      = some (i, get_next_table_addr (entryAt dump off i), decode_flags (entryAt dump off i)) := by
  simp [row_of_entry, h]

theorem not_mem_of_hasNode_false {st : GState} {a : Nat} (h : hasNode st a = false) :
    a ∉ st.nodes.map (fun n => n.1) := by
  simp only [hasNode, List.any_eq_false, beq_iff_eq] at h
  simp only [List.mem_map]
  rintro ⟨n, hn, hna⟩
  exact h n hn (hna.symm ▸ rfl)

theorem hasNode_concat (st : GState) (a x : Nat) (t : Level) (rows : List Row) :
    hasNode { st with nodes := st.nodes ++ [(a, t, rows)] } x
      = (hasNode st x || (a == x)) := by
  simp [hasNode, List.any_append]

theorem add_table_node_inv (dump : Bytes) (base a : Nat) (t : Level) (rows : List Row)
    (st : GState) (hInv : Inv dump base st) (hin : inBoundsTable dump base a)
    (hrows : rows = read_table_rows_spec dump (get_dump_offset base a).toNat) :
    Inv dump base (add_table_node a t rows st)
      ∧ hasNode (add_table_node a t rows st) a = true := by
  unfold add_table_node
  cases hhn : hasNode st a with
  | true =>
    simp only [if_pos]
    exact ⟨hInv, hhn⟩
  | false =>
    simp only [Bool.false_eq_true, if_neg, not_false_eq_true]
    obtain ⟨h1, h2, h3⟩ := hInv
    refine ⟨⟨?_, ?_, ?_⟩, ?_⟩
    · simp only [List.map_append, List.map_cons, List.map_nil]
      rw [List.nodup_append]
      exact ⟨h1, List.nodup_singleton a, by
        simp only [List.disjoint_singleton]
        exact not_mem_of_hasNode_false hhn⟩
    · intro n hn
      rcases List.mem_append.mp hn with hn | hn
      · exact h2 n hn
      · rcases List.mem_singleton.mp hn with rfl
        exact ⟨hin, hrows⟩
    · intro e he
      obtain ⟨b1, b2, b3, b4, b5, b6, b7⟩ := h3 e he
      refine ⟨?_, ?_, b3, b4, b5, b6, b7⟩
      · rw [hasNode_concat, b1]
        rfl
      · rw [hasNode_concat, b2]
        rfl
    · rw [hasNode_concat]
      simp

theorem foldl_step_inv (k : Nat) (dump : Bytes) (base off : Nat) (lvl : Level)
    (IH : ∀ a l2 s r, traverse k dump base a l2 s = some r → Inv dump base s →
          Inv dump base r.2 ∧ (∀ x, r.1 = some x → x = a ∧ hasNode r.2 a = true)) :
    ∀ (l : List Nat) (rows : List Row) (children : List (Nat × Nat)) (st : GState)
      (res : List Row × List (Nat × Nat) × GState),
      (∀ i ∈ l, i < PAGE_TABLE_ENTRIES) →
      List.foldl (traverse_entry_step (fun a l2 s => traverse k dump base a l2 s) dump off lvl)
        (some (rows, children, st)) l = some res →
      Inv dump base st → ChildrenOk dump off st children →
      Inv dump base res.2.2 ∧ ChildrenOk dump off res.2.2 res.2.1 ∧
      res.1 = rows ++ l.filterMap (row_of_entry dump off) := by
  intro l
  induction l with
  | nil =>
    intro rows children st res _ h hInv hch
    cases h
    exact ⟨hInv, hch, by simp⟩
  | cons i l ih =>
    intro rows children st res hl h hInv hch
    rw [List.foldl_cons] at h
    by_cases hp : entryAt dump off i &&& flagMaskOf Flag.P = 0
    · rw [traverse_entry_step_skip _ _ _ _ _ _ _ _ hp] at h
      obtain ⟨c1, c2, c3⟩ := ih rows children st res (fun j hj => hl j (by simp [hj])) h hInv hch
      exact ⟨c1, c2, by rw [c3, List.filterMap_cons, row_of_entry_none hp]⟩
    · by_cases hc : lvl ≠ Level.PT ∧ entryAt dump off i &&& flagMaskOf Flag.PS = 0
      · cases hRr : traverse k dump base (get_next_table_addr (entryAt dump off i))
            (nextLevel lvl) st with
        | none =>
          rw [traverse_entry_step_fail _ _ _ _ _ _ _ _ hp hc.1 hc.2 hRr, foldl_step_none] at h
          cases h
        | some r =>
          obtain ⟨cid, s1⟩ := r
          have hIH := IH _ _ _ _ hRr hInv
          have hext : Ext st s1 := traverse_ext k dump base _ (nextLevel lvl) st (cid, s1) hRr
          cases cid with
          | none =>
            rw [traverse_entry_step_childless _ _ _ _ _ _ _ _ _ hp hc.1 hc.2 hRr] at h
            obtain ⟨c1, c2, c3⟩ := ih _ children s1 res (fun j hj => hl j (by simp [hj])) h
              hIH.1 (ChildrenOk_mono hext hch)
            refine ⟨c1, c2, ?_⟩
            rw [c3, List.filterMap_cons, row_of_entry_some hp]
            simp
          | some c =>
            rw [traverse_entry_step_child _ _ _ _ _ _ _ _ _ _ hp hc.1 hc.2 hRr] at h
            have hcdata := hIH.2 c rfl
            have hchNew : ChildrenOk dump off s1 (children ++ [(i, c)]) := by
              intro c2 hc2
              rcases List.mem_append.mp hc2 with hc2 | hc2
              · exact ChildrenOk_mono hext hch c2 hc2
              · rcases List.mem_singleton.mp hc2 with rfl
                exact ⟨hl i (by simp), hcdata.1 ▸ hcdata.2, hp, hc.2, hcdata.1⟩
            obtain ⟨c1, c2, c3⟩ := ih _ _ s1 res (fun j hj => hl j (by simp [hj])) h
              hIH.1 hchNew
            refine ⟨c1, c2, ?_⟩
            rw [c3, List.filterMap_cons, row_of_entry_some hp]
            simp
      · have ht : lvl = Level.PT ∨ entryAt dump off i &&& flagMaskOf Flag.PS ≠ 0 := by
          by_cases hPT : lvl = Level.PT
          · exact Or.inl hPT
          · right
            intro hps
            exact hc ⟨hPT, hps⟩
        rw [traverse_entry_step_terminal _ _ _ _ _ _ _ _ hp ht] at h
        obtain ⟨c1, c2, c3⟩ := ih _ children st res (fun j hj => hl j (by simp [hj])) h hInv hch
        refine ⟨c1, c2, ?_⟩
        rw [c3, List.filterMap_cons, row_of_entry_some hp]
        simp

theorem traverse_inv : ∀ (fuel : Nat) (dump : Bytes) (base phys : Nat) (lvl : Level)
    (st : GState) (r : Option Nat × GState),
    traverse fuel dump base phys lvl st = some r → Inv dump base st →
    Inv dump base r.2 ∧ (∀ x, r.1 = some x → x = phys ∧ hasNode r.2 phys = true) := by
  intro fuel
  induction fuel with
  | zero =>
    intro dump base phys lvl st r h
    cases h
  | succ k ih =>
    intro dump base phys lvl st r h hInv
    simp only [traverse] at h
    split at h
    · cases h
      exact ⟨Inv_graph_eq rfl rfl hInv, fun x hx => by cases hx⟩
    · rename_i hin
      cases hfold : List.foldl
          (traverse_entry_step (fun a l s => traverse k dump base a l s) dump
            (get_dump_offset base phys).toNat lvl)
          (some ([], [], logStep phys lvl st)) (List.range PAGE_TABLE_ENTRIES) with
      | none =>
        rw [hfold] at h
        simp only [finishTable] at h
        exact Option.noConfusion h
      | some t2 =>
        rw [hfold] at h
        obtain ⟨rows, children, st2⟩ := t2
        simp only [finishTable] at h
        cases h
        have hInv1 : Inv dump base (logStep phys lvl st) := Inv_graph_eq rfl rfl hInv
        have hfInv := foldl_step_inv k dump base (get_dump_offset base phys).toNat lvl
          (fun a l2 s r2 hr2 hi2 => ih dump base a l2 s r2 hr2 hi2)
          (List.range PAGE_TABLE_ENTRIES) [] [] (logStep phys lvl st) (rows, children, st2)
          (fun j hj => List.mem_range.mp hj) hfold hInv1 (fun c hc => absurd hc (List.not_mem_nil c))
        have hrows : rows = read_table_rows_spec dump (get_dump_offset base phys).toNat := by
          have := hfInv.2.2
          simpa [read_table_rows_spec] using this
        have hAdd := add_table_node_inv dump base phys lvl rows st2 hfInv.1 hin hrows
        have hext23 : Ext st2 (add_table_node phys lvl rows st2) := Ext_add_table_node _ _ _ _
        refine ⟨⟨?_, ?_, ?_⟩, ?_⟩
        · exact hAdd.1.1
        · exact hAdd.1.2.1
        · intro e he
          simp only [List.mem_append] at he
          rcases he with he | he
          · exact hAdd.1.2.2 e he
          · obtain ⟨c, hcmem, rfl⟩ := List.mem_map.mp he
            obtain ⟨a1, a2, a3, a4, a5⟩ := hfInv.2.1 c hcmem
            exact ⟨hAdd.2, hasNode_mono hext23 a2, a1, hin, a3, a4, a5⟩
        · intro x hx
          cases hx
          exact ⟨rfl, hAdd.2⟩

theorem Inv_init (dump : Bytes) (base : Nat) : Inv dump base initState :=
  ⟨by simp [initState], by simp [initState], by simp [initState]⟩

theorem walk_inv (dump : Bytes) (base off : Nat) : Inv dump base (walk dump base off) := by
  unfold walk
  cases hp : parse_paging_structure dump base off with
  | none => exact Inv_init dump base
  | some st =>
    unfold parse_paging_structure at hp
    cases ht : traverse 4 dump base (base + off) Level.PML4 initState with
    | none =>
      rw [ht] at hp
      exact Option.noConfusion hp
    | some r =>
      rw [ht] at hp
      cases hp
      exact (traverse_inv 4 dump base (base + off) Level.PML4 initState r ht
        (Inv_init dump base)).1

/-- The bit position of each flag tag, as documented in the source table. -/
def flagBit : Flag → Nat
  | Flag.P => 0
  | Flag.RW => 1
  | Flag.US => 2
  | Flag.PWT => 3
  | Flag.PCD => 4
  | Flag.A => 5
  | Flag.D => 6
  | Flag.PS => 7
  | Flag.G => 8

/-- The nine flag tags in the declaration order of FLAG_MASKS. -/
def flagOrder : List Flag :=
  [Flag.P, Flag.RW, Flag.US, Flag.PWT, Flag.PCD, Flag.A, Flag.D, Flag.PS, Flag.G]

theorem FLAG_MASKS_eq_map : FLAG_MASKS = flagOrder.map (fun f => (f, 1 <<< flagBit f)) := rfl

theorem and_one_shift (v k : Nat) : (v &&& (1 <<< k) != 0) = v.testBit k := by
  rw [Nat.one_shiftLeft, Nat.and_two_pow]
  cases h : v.testBit k
  · simp
  · simp [Nat.pow_eq_zero]

theorem decode_flags_eq_filter (v : Nat) :
    decode_flags v = flagOrder.filter (fun f => v.testBit (flagBit f)) := by
  unfold decode_flags
  rw [FLAG_MASKS_eq_map, List.filter_map, List.map_map]
  have h1 : ∀ f : Flag,
      ((fun fm : Flag × Nat => v &&& fm.2 != 0) ∘ fun f => (f, 1 <<< flagBit f)) f
        = v.testBit (flagBit f) := by
    intro f
    simp [Function.comp, and_one_shift]
  rw [List.filter_congr (fun f _ => h1 f)]
  rw [show ((fun fm : Flag × Nat => fm.1) ∘ fun f : Flag => (f, 1 <<< flagBit f)) = id from rfl]
  rw [List.map_id]

theorem next_table_mask_testBit (v k : Nat) :
    (get_next_table_addr v).testBit k
      = (v.testBit k && (decide (12 ≤ k) && decide (k < 52))) := by
  unfold get_next_table_addr
  rw [Nat.testBit_land]
  congr 1
  by_cases h : k < 52
  · have hlt : ∀ j, j < 52 → (0x000FFFFFFFFFF000 : Nat).testBit j
        = (decide (12 ≤ j) && decide (j < 52)) := by decide
    exact hlt k h
  · have h2 : (0x000FFFFFFFFFF000 : Nat) < 2 ^ k :=
      lt_of_lt_of_le (by decide : (0x000FFFFFFFFFF000 : Nat) < 2 ^ 52)
        (Nat.pow_le_pow_right (by norm_num) (by omega))
    rw [Nat.testBit_eq_false_of_lt h2]
    simp [h]

theorem readLE64_eq_sum (dump : Bytes) (off : Nat) :
    readLE64 dump off = ∑ j ∈ Finset.range 8, dump.byte (off + j) % 256 * 256 ^ j := by
  simp [readLE64, show List.range 8 = [0, 1, 2, 3, 4, 5, 6, 7] from rfl,
    Finset.sum_range_succ]
  ring

theorem traverse_oob (fuel : Nat) (dump : Bytes) (base phys : Nat) (lvl : Level) (st : GState)
    (h : get_dump_offset base phys < 0 ∨ get_dump_offset base phys + 4096 > (dump.len : Int)) :
    traverse (fuel + 1) dump base phys lvl st
      = some (none, { st with calls := st.calls ++ [(phys, lvl)] }) := by
  simp only [traverse]
  rw [if_pos h]

theorem traverse_inb_result (fuel : Nat) (dump : Bytes) (base phys : Nat) (lvl : Level)
    (st : GState) (r : Option Nat × GState)
    (h : traverse (fuel + 1) dump base phys lvl st = some r)
    (hoob : ¬(get_dump_offset base phys < 0 ∨
              get_dump_offset base phys + 4096 > (dump.len : Int))) :
    ∃ st4, r = (some phys, st4) := by
  simp only [traverse] at h
  rw [if_neg hoob] at h
  cases hfold : List.foldl
      (traverse_entry_step (fun a l s => traverse fuel dump base a l s) dump
        (get_dump_offset base phys).toNat lvl)
      (some ([], [], logStep phys lvl st)) (List.range PAGE_TABLE_ENTRIES) with
  | none =>
    rw [hfold] at h
    simp only [finishTable] at h
    exact Option.noConfusion h
  | some t2 =>
    rw [hfold] at h
    obtain ⟨rows, children, st2⟩ := t2
    simp only [finishTable] at h
    cases h
    exact ⟨_, rfl⟩

theorem add_table_node_calls (a : Nat) (t : Level) (rows : List Row) (st : GState) :
    (add_table_node a t rows st).calls = st.calls := by
  unfold add_table_node
  split
  · rfl
  · rfl

theorem traverse_calls (fuel : Nat) (dump : Bytes) (base phys : Nat) (lvl : Level)
    (st : GState) (r : Option Nat × GState)
    (h : traverse (fuel + 1) dump base phys lvl st = some r) :
    ∃ t, r.2.calls = (st.calls ++ [(phys, lvl)]) ++ t := by
  simp only [traverse] at h
  split at h
  · cases h
    exact ⟨[], by simp⟩
  · cases hfold : List.foldl
        (traverse_entry_step (fun a l s => traverse fuel dump base a l s) dump
          (get_dump_offset base phys).toNat lvl)
        (some ([], [], logStep phys lvl st)) (List.range PAGE_TABLE_ENTRIES) with
    | none =>
      rw [hfold] at h
      simp only [finishTable] at h
      exact Option.noConfusion h
    | some t2 =>
      rw [hfold] at h
      obtain ⟨rows, children, st2⟩ := t2
      simp only [finishTable] at h
      cases h
      have hext := foldl_step_ext _ dump _ lvl
        (fun a l s r2 hr => traverse_ext fuel dump base a l s r2 hr)
        _ [] [] (logStep phys lvl st) _ hfold
      obtain ⟨-, -, ⟨t, ht⟩, -⟩ := hext
      refine ⟨t, ?_⟩
      show (add_table_node phys lvl rows st2).calls = (st.calls ++ [(phys, lvl)]) ++ t
      rw [add_table_node_calls, ht]
      rfl

theorem take_of_append {α : Type} (A : List α) (x : α) (t : List α) :
    ((A ++ [x]) ++ t).take (A.length + 1) = A ++ [x] := by
  have hlen : (A ++ [x]).length = A.length + 1 := by simp
  rw [← hlen, List.take_left]

/-- Claim C1: for every present entry processed by the walker, recursion
into a child table occurs if and only if the current level is not PT (leaf)
and the Page-Size bit of the entry is unset; a present entry at leaf level
or with the Page-Size bit set still produces a row but leaves the children
list and the state untouched (no child node, no edge, no recursive call);
a non-present entry produces no row and no recursion; and every recursive
invocation logs itself as the next entry of the calls log. -/
theorem claim1 (fuel : Nat) (dump : Bytes) (base off : Nat) (lvl : Level)
    (rows : List Row) (children : List (Nat × Nat)) (st : GState) (i : Nat) :
    (entryAt dump off i &&& flagMaskOf Flag.P = 0 →
      traverse_entry_step (fun a l s => traverse fuel dump base a l s) dump off lvl
        (some (rows, children, st)) i = some (rows, children, st))
    ∧ (entryAt dump off i &&& flagMaskOf Flag.P ≠ 0 →
       (lvl = Level.PT ∨ entryAt dump off i &&& flagMaskOf Flag.PS ≠ 0) →
      traverse_entry_step (fun a l s => traverse fuel dump base a l s) dump off lvl
        (some (rows, children, st)) i
        = some (rows ++ [(i, get_next_table_addr (entryAt dump off i),
                          decode_flags (entryAt dump off i))], children, st))
    ∧ (∀ cid st1,
       entryAt dump off i &&& flagMaskOf Flag.P ≠ 0 →
       lvl ≠ Level.PT →
       entryAt dump off i &&& flagMaskOf Flag.PS = 0 →
       traverse fuel dump base (get_next_table_addr (entryAt dump off i)) (nextLevel lvl) st
         = some (cid, st1) →
      traverse_entry_step (fun a l s => traverse fuel dump base a l s) dump off lvl
        (some (rows, children, st)) i
        = some (rows ++ [(i, get_next_table_addr (entryAt dump off i),
                          decode_flags (entryAt dump off i))],
            children ++ (match cid with | some c => [(i, c)] | none => []), st1))
    ∧ (∀ phys r, traverse (fuel + 1) dump base phys lvl st = some r →
        r.2.calls.take (st.calls.length + 1) = st.calls ++ [(phys, lvl)]) := by
  refine ⟨?_, ?_, ?_, ?_⟩
  · intro hp
    exact traverse_entry_step_skip _ _ _ _ _ _ _ _ hp
  · intro hp ht
    exact traverse_entry_step_terminal _ _ _ _ _ _ _ _ hp ht
  · intro cid st1 hp hl hs hrec
    cases cid with
    | none =>
      simpa using traverse_entry_step_childless _ _ _ _ rows children _ _ _ hp hl hs hrec
    | some c =>
      exact traverse_entry_step_child _ _ _ _ _ _ _ _ _ _ hp hl hs hrec
  · intro phys r hr
    obtain ⟨t, ht⟩ := traverse_calls fuel dump base phys lvl st r hr
    rw [ht]
    exact take_of_append st.calls (phys, lvl) t

/-- Claim C1 witness: at slot 0 of the zero dump the entry is non-present
and the step is the identity; and a call of traverse on an out-of-bounds
table still logs itself at the head of the new calls entries. -/
theorem claim1_witness :
    (traverse_entry_step (fun a l s => traverse 0 emptyBytes 0 a l s) emptyBytes 0 Level.PML4
      (some ([], [], initState)) 0 = some ([], [], initState))
    ∧ (({ initState with calls := [(7, Level.PML4)] } : GState).calls.take
        (initState.calls.length + 1) = initState.calls ++ [(7, Level.PML4)]) := by
  constructor
  · exact (claim1 0 emptyBytes 0 0 Level.PML4 [] [] initState 0).1 (by decide)
  · exact (claim1 0 emptyBytes 0 0 Level.PML4 [] [] initState 0).2.2.2 7
      (none, { initState with calls := [(7, Level.PML4)] }) (by decide)

/-- Claim C2 counterexample: on the self-referential dump the walk emits a
single node for physical address 0, but the 512-entry table at address 0 is
read and decoded four times (once per level), so a duplicate decode does
happen and the recursion does not stop at the second visit. -/
theorem claim2_cex :
    ((walk cycleBytes 0 0).nodes.filter (fun n => n.1 == 0)).length = 1
    ∧ ((walk cycleBytes 0 0).reads.filter (fun r => r.1 == 0)).length = 4
    ∧ ((walk cycleBytes 0 0).calls.filter (fun r => r.1 == 0)).length = 4 := by
  rw [walk_cycle]
  exact ⟨by decide, by decide, by decide⟩

/-- Claim C2 (amended): before materializing a node, add_table_node checks
the visited set: a second call with an already emitted identity returns the
state unchanged (the existing node is reused, no duplicate node), a first
call appends the node, and node addresses in any walk output are pairwise
distinct. The visited set does not short-circuit re-reads or recursion. -/
theorem claim2 :
    (∀ a t rows st, hasNode st a = true → add_table_node a t rows st = st)
    ∧ (∀ a t rows st, hasNode st a = false →
        (add_table_node a t rows st).nodes = st.nodes ++ [(a, t, rows)])
    ∧ (∀ dump base off, ((walk dump base off).nodes.map (fun n => n.1)).Nodup) := by
  refine ⟨add_table_node_visited, ?_, ?_⟩
  · intro a t rows st h
    simp [add_table_node, h]
  · intro dump base off
    exact (walk_inv dump base off).1

/-- Claim C2 witness: a state already holding a node for address 0 is
returned unchanged by a second add_table_node for address 0. -/
theorem claim2_witness :
    add_table_node 0 Level.PT [] ⟨[(0, Level.PML4, [])], [], [], []⟩
      = ⟨[(0, Level.PML4, [])], [], [], []⟩ :=
  claim2.1 0 Level.PT [] ⟨[(0, Level.PML4, [])], [], [], []⟩ (by decide)

/-- Claim C3: the walk terminates on every input (parse_paging_structure
always returns a graph), and on the crafted dump whose middle-lower table
has a present entry pointing back at its own physical address the walk
terminates with exactly one node for that address. -/
theorem claim3 :
    (∀ (dump : Bytes) (base off : Nat), ∃ st, parse_paging_structure dump base off = some st)
    ∧ entryAt cycleBytes 0 0 &&& flagMaskOf Flag.P ≠ 0
    ∧ get_next_table_addr (entryAt cycleBytes 0 0) = 0
    ∧ (0, Level.PD) ∈ (walk cycleBytes 0 0).reads
    ∧ ((walk cycleBytes 0 0).nodes.filter (fun n => n.1 == 0)).length = 1 := by
  refine ⟨parse_total, ?_, ?_, ?_, ?_⟩
  · rw [cycle_entry_zero]
    decide
  · rw [cycle_entry_zero]
    decide
  · rw [walk_cycle]
    simp [cycleGraph]
  · rw [walk_cycle]
    decide

/-- Claim C4: reading a table fails (the walker returns no node id and only
the call log grows) exactly when the offset is negative or the 4096-byte
window exceeds the dump length; on such a failure the nodes, edges and
reads of the state are untouched (the table and its subtree are absent),
and a sibling entry whose child is out of bounds still records its row,
adds no child link, and lets the fold continue. -/
theorem claim4 (fuel : Nat) (dump : Bytes) (base phys : Nat) (lvl : Level) (st : GState) :
    (traverse (fuel + 1) dump base phys lvl st
        = some (none, { st with calls := st.calls ++ [(phys, lvl)] })
      ↔ (get_dump_offset base phys < 0 ∨ get_dump_offset base phys + 4096 > (dump.len : Int)))
    ∧ (∀ off rows children i,
        entryAt dump off i &&& flagMaskOf Flag.P ≠ 0 →
        lvl ≠ Level.PT →
        entryAt dump off i &&& flagMaskOf Flag.PS = 0 →
        (get_dump_offset base (get_next_table_addr (entryAt dump off i)) < 0 ∨
         get_dump_offset base (get_next_table_addr (entryAt dump off i)) + 4096
           > (dump.len : Int)) →
        traverse_entry_step (fun a l s => traverse (fuel + 1) dump base a l s) dump off lvl
            (some (rows, children, st)) i
          = some (rows ++ [(i, get_next_table_addr (entryAt dump off i),
                            decode_flags (entryAt dump off i))], children,
              { st with calls := st.calls ++ [(get_next_table_addr (entryAt dump off i),
                                               nextLevel lvl)] })) := by
  constructor
  · constructor
    · intro h
      by_cases hoob : get_dump_offset base phys < 0 ∨
          get_dump_offset base phys + 4096 > (dump.len : Int)
      · exact hoob
      · obtain ⟨st4, heq⟩ := traverse_inb_result fuel dump base phys lvl st _ h hoob
        exact Option.noConfusion (congrArg Prod.fst heq)
    · exact traverse_oob fuel dump base phys lvl st
  · intro off rows children i hp hl hs hoob
    exact traverse_entry_step_childless _ _ _ _ _ _ _ _ _ hp hl hs
      (traverse_oob fuel dump base _ (nextLevel lvl) st hoob)

/-- Claim C4 witness: on the zero-length dump, the table at address 5 is
out of bounds and traverse returns no node id with only the call logged;
and a present sibling entry of the all-ones zero-length dump records its
row but no child link when its child table is out of bounds. -/
theorem claim4_witness :
    (traverse 1 emptyBytes 0 5 Level.PML4 initState
      = some (none, { initState with calls := [(5, Level.PML4)] }))
    ∧ (traverse_entry_step (fun a l s => traverse 1 onesBytes 0 a l s) onesBytes 0 Level.PD
        (some ([], [], initState)) 0
      = some ([(0, get_next_table_addr (entryAt onesBytes 0 0),
                decode_flags (entryAt onesBytes 0 0))], [],
          { initState with calls := [(get_next_table_addr (entryAt onesBytes 0 0),
                                      Level.PT)] })) := by
  constructor
  · have h := (claim4 0 emptyBytes 0 5 Level.PML4 initState).1.mpr (by decide)
    simpa using h
  · have h := (claim4 0 onesBytes 0 0 Level.PD initState).2 0 [] [] 0
      (by decide) (by decide) (by decide) (by decide)
    simpa using h

/-- Claim C5 counterexample: on the dump of all zero bytes except byte 0 set
to 0x01, with base 0 and top offset 0, the walk produces exactly one node
but three edge records, not one. -/
theorem claim5_cex :
    (walk cycleBytes 0 0).nodes.length = 1 ∧ (walk cycleBytes 0 0).edges.length ≠ 1 := by
  rw [walk_cycle]
  exact ⟨rfl, by decide⟩

/-- Claim C5 (amended): that walk yields exactly one node, carrying one
present row at slot 0, and exactly three edge records, all three being the
same self-loop from the node for address 0 to itself labeled with slot 0
(one record per non-leaf level), hence exactly one distinct edge. -/
theorem claim5 :
    (walk cycleBytes 0 0).nodes = [(0, Level.PT, [(0, 0, [Flag.P])])]
    ∧ (walk cycleBytes 0 0).edges = [(0, 0, 0), (0, 0, 0), (0, 0, 0)]
    ∧ (walk cycleBytes 0 0).edges.dedup = [(0, 0, 0)] := by
  rw [walk_cycle]
  exact ⟨rfl, rfl, by decide⟩

/-- Claim C6: every node of a walk is an in-bounds table whose rows are
exactly the present entries of its 512 slots in increasing slot order, each
recorded as (slot index, masked next address, decoded flags); the entry of
slot i is the little-endian value of the 8 consecutive bytes starting at
the table offset plus 8 i; and the address mask keeps exactly bits 12-51. -/
theorem claim6 :
    (∀ (dump : Bytes) (base off : Nat) n, n ∈ (walk dump base off).nodes →
      inBoundsTable dump base n.1
      ∧ n.2.2 = read_table_rows_spec dump (get_dump_offset base n.1).toNat)
    ∧ (∀ (dump : Bytes) (off i : Nat),
        entryAt dump off i
          = ∑ j ∈ Finset.range 8, dump.byte (off + i * ENTRY_SIZE + j) % 256 * 256 ^ j)
    ∧ (∀ v k, (get_next_table_addr v).testBit k
        = (v.testBit k && (decide (12 ≤ k) && decide (k < 52)))) := by
  refine ⟨?_, ?_, next_table_mask_testBit⟩
  · intro dump base off n hn
    exact (walk_inv dump base off).2.1 n hn
  · intro dump off i
    unfold entryAt
    rw [readLE64_eq_sum]

/-- Claim C6 witness: the single node of the cycle walk is in bounds and
its rows agree with the specified table reading. -/
theorem claim6_witness :
    inBoundsTable cycleBytes 0 0
    ∧ [(0, 0, [Flag.P])] = read_table_rows_spec cycleBytes (get_dump_offset 0 0).toNat :=
  claim6.1 cycleBytes 0 0 (0, Level.PT, [(0, 0, [Flag.P])]) (by rw [walk_cycle]; simp [cycleGraph])

/-- Claim C7: the flag decoder is total on all inputs and its output is the
fixed declaration-order list of the nine tags filtered by the corresponding
bit of the input, so a tag is contained if and only if its single bit (P at
0, RW at 1, US at 2, PWT at 3, PCD at 4, A at 5, D at 6, PS at 7, G at 8)
is set, independently for each tag, in declaration order. -/
theorem claim7 (v : Nat) :
    decode_flags v = flagOrder.filter (fun f => v.testBit (flagBit f))
    ∧ (∀ f : Flag, f ∈ decode_flags v ↔ v.testBit (flagBit f) = true)
    ∧ flagOrder = [Flag.P, Flag.RW, Flag.US, Flag.PWT, Flag.PCD, Flag.A, Flag.D, Flag.PS,
        Flag.G]
    ∧ flagBit Flag.P = 0 ∧ flagBit Flag.RW = 1 ∧ flagBit Flag.US = 2 ∧ flagBit Flag.PWT = 3
    ∧ flagBit Flag.PCD = 4 ∧ flagBit Flag.A = 5 ∧ flagBit Flag.D = 6 ∧ flagBit Flag.PS = 7
    ∧ flagBit Flag.G = 8 := by
  refine ⟨decode_flags_eq_filter v, ?_, rfl, rfl, rfl, rfl, rfl, rfl, rfl, rfl, rfl, rfl⟩
  intro f
  rw [decode_flags_eq_filter v, List.mem_filter]
  constructor
  · exact fun h => h.2
  · intro h
    refine ⟨?_, h⟩
    cases f <;> simp [flagOrder]

/-- Claim C8: in every graph produced by the walk, both endpoints of every
edge are recorded nodes, and the edge stems from a present entry with the
Page-Size bit unset of an in-bounds parent table pointing at the child. -/
theorem claim8 (dump : Bytes) (base off : Nat) (e : Nat × Nat × Nat)
    (he : e ∈ (walk dump base off).edges) : EdgeOk dump base (walk dump base off) e :=
  (walk_inv dump base off).2.2 e he

/-- Claim C8 witness: the self-loop edge of the cycle walk is a sound edge
of that graph. -/
theorem claim8_witness : EdgeOk cycleBytes 0 cycleGraph (0, 0, 0) := by
  have h := claim8 cycleBytes 0 0 (0, 0, 0) (by rw [walk_cycle]; decide)
  rwa [walk_cycle] at h

/-- Claim C9 counterexample: the cycle walk reaches physical address 0 both
as a middle-lower (PD) table and as a leaf (PT) table, yet the graph holds
one single node for that address, not two. -/
theorem claim9_cex :
    (0, Level.PD) ∈ (walk cycleBytes 0 0).reads
    ∧ (0, Level.PT) ∈ (walk cycleBytes 0 0).reads
    ∧ ((walk cycleBytes 0 0).nodes.filter (fun n => n.1 == 0)).length ≠ 2 := by
  rw [walk_cycle]
  exact ⟨by simp [cycleGraph], by simp [cycleGraph], by decide⟩

/-- Claim C9 (amended): graph nodes are keyed by the table physical address
alone, not by address and level: a second materialization of the same
address at any level is absorbed by the first, and the cycle walk, which
reaches address 0 at two different levels, holds exactly one node for it. -/
theorem claim9 :
    (∀ a t t2 rows rows2 st,
      add_table_node a t2 rows2 (add_table_node a t rows st) = add_table_node a t rows st)
    ∧ ((walk cycleBytes 0 0).nodes.filter (fun n => n.1 == 0)).length = 1 := by
  constructor
  · intro a t t2 rows rows2 st
    apply add_table_node_visited
    by_cases hhn : hasNode st a = true
    · rw [add_table_node_visited _ _ _ _ hhn]
      exact hhn
    · unfold add_table_node
      rw [if_neg hhn]
      rw [hasNode_concat]
      simp
  · rw [walk_cycle]
    decide

/-- Claim C10: if the top-level table itself is out of bounds (in
particular whenever the dump is shorter than the top offset plus 4096),
the walk returns normally with a graph of zero nodes and zero edges. -/
theorem claim10 (dump : Bytes) (base off : Nat)
    (h : (off : Int) + 4096 > (dump.len : Int)) :
    parse_paging_structure dump base off
      = some { nodes := [], edges := [], calls := [(base + off, Level.PML4)], reads := [] } := by
  unfold parse_paging_structure
  rw [show (4 : Nat) = 3 + 1 from rfl, traverse_oob 3 dump base (base + off) Level.PML4 initState
    (by
      right
      unfold get_dump_offset
      push_cast
      omega)]
  simp [initState]

/-- Claim C10 witness: on the zero-length dump with base 0 and offset 0 the
walk returns the empty graph with only the root call logged. -/
theorem claim10_witness :
    parse_paging_structure emptyBytes 0 0
      = some { nodes := [], edges := [], calls := [(0, Level.PML4)], reads := [] } := by
  have h := claim10 emptyBytes 0 0 (by decide)
  simpa using h

end Pageviz
